import Mathlib

/-!
Verification development for the radlibs template filler (src/main.rs).

The program is embedded shallowly over byte lists (`List Nat`, one `Nat`
per byte).  Text values (identifiers, prompts, words) are kept as their
byte lists; UTF-8 decoding in the source is the identity on the byte
content and decode failures are outside the scope of the claims treated
here.  The interactive operator channel is modelled as a list of
pre-stripped answer lines, and standard output as the returned byte list.
Fallible operations (the unwrap calls in take_word) return Option.
-/

namespace Radlibs

/-- Byte constant from the source: PROMPT_START is the opening brace. -/
def PROMPT_START : Nat := 123

/-- Byte constant from the source: PROMPT_END is the closing brace. -/
def PROMPT_END : Nat := 125

/-- Byte constant from the source: ESCAPE_CHAR is the backslash. -/
def ESCAPE_CHAR : Nat := 92

/-- Byte of the identifier marker string from the source (the at sign). -/
def IDENTIFIER : Nat := 64

/-- Byte of the separator string from the source (the space). -/
def SEPARATOR : Nat := 32

/-- The two scanning modes of parse_file; the discriminant of each mode is
its target delimiter byte, as in the Rust enum. -/
inductive ParseMode where
  | Preceding : ParseMode
  | Containing : ParseMode
deriving DecidableEq, Repr

/-- Target delimiter byte of a mode (the Rust cast of the enum value). -/
def ParseMode.delim : ParseMode → Nat
  | ParseMode.Preceding => PROMPT_START
  | ParseMode.Containing => PROMPT_END

/-- Mode alternation performed after a segment is emitted. -/
def ParseMode.toggle : ParseMode → ParseMode
  | ParseMode.Preceding => ParseMode.Containing
  | ParseMode.Containing => ParseMode.Preceding

/-- Model of BufRead::read_until on a byte list: the first component is the
chunk read (up to and including the first occurrence of the delimiter, or
the whole input if the delimiter is absent), the second is the rest. -/
def readUntil (d : Nat) : List Nat → List Nat × List Nat
  | [] => ([], [])
  | b :: rest =>
    if b = d then ([b], rest)
    else (b :: (readUntil d rest).1, (readUntil d rest).2)

/-- Fueled model of the scanning loop in parse_file.  Each iteration
appends one read_until chunk to the pending buffer; if the accumulated
buffer is shorter than 2 bytes or its second-to-last byte is not the
escape byte, the last byte is popped, the buffer is emitted as a segment
tagged with the current mode and the mode toggles; otherwise the escape
byte (second-to-last position) is removed and scanning continues in the
same mode.  A read that produces no bytes ends the loop, discarding the
buffer; since read_until returns a non-empty chunk exactly on non-empty
input, the zero-byte test of the source is the emptiness of the
remaining input.  The fuel only forces termination; with fuel above the
input length the model is exact. -/
def parseLoopF : Nat → List Nat → List Nat → ParseMode → List (ParseMode × List Nat)
  | 0, _, _, _ => []
  | f + 1, input, buf, mode =>
    if input = [] then []
    else
      if (buf ++ (readUntil (ParseMode.delim mode) input).1).length < 2 ∨
          (buf ++ (readUntil (ParseMode.delim mode) input).1).get?
            ((buf ++ (readUntil (ParseMode.delim mode) input).1).length - 2) ≠ some ESCAPE_CHAR then
        (mode, (buf ++ (readUntil (ParseMode.delim mode) input).1).dropLast) ::
          parseLoopF f (readUntil (ParseMode.delim mode) input).2 [] (ParseMode.toggle mode)
      else
        parseLoopF f (readUntil (ParseMode.delim mode) input).2
          ((buf ++ (readUntil (ParseMode.delim mode) input).1).eraseIdx
            ((buf ++ (readUntil (ParseMode.delim mode) input).1).length - 2)) mode

/-- The scanning loop of parse_file, started on a full input. -/
def parseLoop (input buf : List Nat) (mode : ParseMode) : List (ParseMode × List Nat) :=
  parseLoopF (input.length + 1) input buf mode

/-- The word bank entry: the pool of collected words paired with the
persistence flag, mirroring the Rust tuple (HashSet of strings, bool).
The HashSet is modelled as a duplicate-free list in a fixed iteration
order; iter().nth(0) becomes the list head. -/
abbrev Entry := List (List Nat) × Bool

/-- The word bank: HashMap from identifier bytes to entries, modelled as
an association list. -/
abbrev WordMap := List (List Nat × Entry)

/-- Lookup of an identifier in the word map (HashMap::get). -/
def wmLookup (id : List Nat) : WordMap → Option Entry
  | [] => none
  | p :: m => if p.1 = id then some p.2 else wmLookup id m

/-- Replace the entry of an identifier in place (mutation through
HashMap::get_mut). -/
def wmModify (id : List Nat) (f : Entry → Entry) : WordMap → WordMap
  | [] => []
  | p :: m => if p.1 = id then (p.1, f p.2) :: m else p :: wmModify id f m

/-- Remove the entry of an identifier (HashMap::remove). -/
def wmRemove (id : List Nat) : WordMap → WordMap
  | [] => []
  | p :: m => if p.1 = id then m else p :: wmRemove id m

/-- InputParser::add_identifier: create an entry with an empty pool when
the identifier is not yet present. -/
def add_identifier (id : List Nat) (is_persistent : Bool) (m : WordMap) : WordMap :=
  if (wmLookup id m).isSome then m else m ++ [(id, ([], is_persistent))]

/-- HashSet::insert on the pool: a duplicate insertion is a no-op. -/
def poolInsert (w : List Nat) (pool : List (List Nat)) : List (List Nat) :=
  if w ∈ pool then pool else pool ++ [w]

/-- InputParser::add_word: ensure the entry exists, then insert the word
into its pool with set semantics. -/
def add_word (id w : List Nat) (is_persistent : Bool) (m : WordMap) : WordMap :=
  wmModify id (fun e => (poolInsert w e.1, e.2)) (add_identifier id is_persistent m)

/-- OutputParser::take_word.  Returns none where the Rust code panics on
unwrap: when the identifier is absent from the map, or when its pool is
empty.  Otherwise picks the first pool element; a non-persistent entry
has that element removed, and the entry itself is removed once the pool
is empty. -/
def take_word (id : List Nat) (m : WordMap) : Option (List Nat × WordMap) :=
  match wmLookup id m with
  | none => none
  | some e =>
    match e.1.head? with
    | none => none
    | some w =>
      if e.2 then some (w, m)
      else if (e.1.erase w).isEmpty then some (w, wmRemove id m)
      else some (w, wmModify id (fun e2 => (e.1.erase w, e2.2)) m)

/-- Rust str::split on the single-space separator: every occurrence of
the separator byte splits, and empty parts are kept. -/
def splitSep : List Nat → List (List Nat)
  | [] => [[]]
  | b :: rest =>
    if b = SEPARATOR then [] :: splitSep rest
    else
      match splitSep rest with
      | [] => [[b]]
      | p :: ps => (b :: p) :: ps

/-- Rejoining of the prompt parts with single separators, as the loop in
InputParser::parse_containing does for the tokens after the first. -/
def joinSep : List (List Nat) → List Nat
  | [] => []
  | [p] => p
  | p :: ps => p ++ SEPARATOR :: joinSep ps

/-- The collection-pass placeholder grammar of
InputParser::parse_containing: on marker-led text, fewer than two
space-separated parts means the placeholder is skipped (none); otherwise
the result is the tuple (prompt, identifier, persistent) as built by the
source, the identifier being the first token, marker included.  Text
without the marker is its own prompt and identifier, non-persistent. -/
def collectParse (text : List Nat) : Option (List Nat × List Nat × Bool) :=
  if text.head? = some IDENTIFIER then
    if (splitSep text).length ≤ 1 then none
    else some (joinSep ((splitSep text).drop 1), ((splitSep text).headD [], true))
  else some (text, (text, false))

/-- The rendering-pass identifier grammar of
OutputParser::parse_containing: the first space-separated token when the
text starts with the marker, the whole text otherwise. -/
def output_ident (text : List Nat) : List Nat :=
  if text.head? = some IDENTIFIER then (splitSep text).headD [] else text

/-- State of the collection pass: the pending operator answer lines (with
line terminators already stripped) and the word map built so far. -/
structure InState where
  answers : List (List Nat)
  word_map : WordMap
deriving DecidableEq, Repr

/-- InputParser::parse_containing: parse the placeholder, and unless it
is skipped, consume one operator answer and store it.  An exhausted
answer channel behaves like read_line at end of input: the empty word is
stored. -/
def input_parse_containing (text : List Nat) (s : InState) : InState :=
  match collectParse text with
  | none => s
  | some r => ⟨s.answers.tail, add_word r.2.1 (s.answers.headD []) r.2.2 s.word_map⟩

/-- The collection pass over the emitted segments: literal segments are
ignored (InputParser::parse_preceding is empty), placeholder segments go
through input_parse_containing. -/
def parse_segments_input : List (ParseMode × List Nat) → InState → InState
  | [], s => s
  | (ParseMode.Preceding, _) :: r, s => parse_segments_input r s
  | (ParseMode.Containing, t) :: r, s => parse_segments_input r (input_parse_containing t s)

/-- The segmenter applied to a whole source, as parse_file does after
rewinding: empty buffer, Preceding mode. -/
def parse_file (input : List Nat) : List (ParseMode × List Nat) :=
  parseLoop input [] ParseMode.Preceding

/-- prompt_for_words_in: run the collection pass from an empty word map
and return the resulting word map. -/
def prompt_for_words_in (input : List Nat) (answers : List (List Nat)) : WordMap :=
  (parse_segments_input (parse_file input) ⟨answers, []⟩).word_map

/-- The rendering pass over the emitted segments: literal segments are
written verbatim, placeholder segments are replaced by the word taken
from the map; none models the take_word panic aborting the run. -/
def parse_segments_output : List (ParseMode × List Nat) → WordMap → Option (List Nat × WordMap)
  | [], m => some ([], m)
  | (ParseMode.Preceding, t) :: r, m =>
    (parse_segments_output r m).map (fun p => (t ++ p.1, p.2))
  | (ParseMode.Containing, t) :: r, m =>
    match take_word (output_ident t) m with
    | none => none
    | some q => (parse_segments_output r q.2).map (fun p => (q.1 ++ p.1, p.2))

/-- substitute_words_in: run the rendering pass and append the final
println newline to the written output. -/
def substitute_words_in (input : List Nat) (m : WordMap) : Option (List Nat) :=
  (parse_segments_output (parse_file input) m).map (fun p => p.1 ++ [10])

/-- radlibs: the two-pass pipeline over the same source. -/
def radlibs (input : List Nat) (answers : List (List Nat)) : Option (List Nat) :=
  substitute_words_in input (prompt_for_words_in input answers)

/-- The reachable-state invariant of the word bank: every stored entry
has a non-empty pool. -/
abbrev BankInv (m : WordMap) : Prop := ∀ p ∈ m, p.2.1 ≠ []

/-- Well-formedness of the association-list representation: no duplicate
keys (automatic for the Rust HashMap). -/
abbrev keysNodup (m : WordMap) : Prop := (m.map Prod.fst).Nodup

/-- A single word-bank operation: storing an answer or taking a word. -/
inductive Op where
  | add : List Nat → List Nat → Bool → Op
  | take : List Nat → Op
deriving DecidableEq, Repr

/-- Effect of one operation on the word map.  A failing take aborts the
real program, so the map is left unchanged in that case. -/
def applyOp : Op → WordMap → WordMap
  | Op.add id w p, m => add_word id w p m
  | Op.take id, m =>
    match take_word id m with
    | none => m
    | some q => q.2

/-- Effect of a sequence of operations on the word map. -/
def applyOps : List Op → WordMap → WordMap
  | [], m => m
  | op :: ops, m => applyOps ops (applyOp op m)

/-- Iterated take_word on one identifier: the n words taken in order and
the final map, or none if any call fails. -/
def takeN : Nat → List Nat → WordMap → Option (List (List Nat) × WordMap)
  | 0, _, m => some ([], m)
  | n + 1, id, m =>
    match take_word id m with
    | none => none
    | some q => (takeN n id q.2).map (fun p => (q.1 :: p.1, p.2))

/-- Byte content of the two-occurrence template from the specification
scenario: an x placeholder, the literal word and, and the x placeholder
again. -/
def tmplXandX : List Nat := [123, 120, 125, 32, 97, 110, 100, 32, 123, 120, 125]

theorem readUntil_snd_le (d : Nat) : ∀ l : List Nat, (readUntil d l).2.length ≤ l.length := by
  intro l
  induction l with
  | nil => simp [readUntil]
  | cons b rest ih =>
    by_cases hb : b = d
    · simp [readUntil, hb]
    · simp [readUntil, hb]
      omega

theorem readUntil_snd_lt (d : Nat) (l : List Nat) (h : l ≠ []) :
    (readUntil d l).2.length < l.length := by
  cases l with
  | nil => exact absurd rfl h
  | cons b rest =>
    by_cases hb : b = d
    · simp [readUntil, hb]
    · have := readUntil_snd_le d rest
      simp [readUntil, hb]
      omega

theorem readUntil_no_delim (d : Nat) : ∀ l : List Nat, d ∉ l → readUntil d l = (l, []) := by
  intro l
  induction l with
  | nil => intro _; rfl
  | cons b rest ih =>
    intro h
    have hb : b ≠ d := fun hbd => h (hbd ▸ List.mem_cons_self b rest)
    have hrest : d ∉ rest := fun hm => h (List.mem_cons_of_mem b hm)
    simp [readUntil, hb, ih hrest]

theorem readUntil_to_delim (d : Nat) :
    ∀ pre rest : List Nat, d ∉ pre → readUntil d (pre ++ d :: rest) = (pre ++ [d], rest) := by
  intro pre
  induction pre with
  | nil => intro rest _; simp [readUntil]
  | cons p ps ih =>
    intro rest h
    have hp : p ≠ d := fun hpd => h (hpd ▸ List.mem_cons_self p ps)
    have hps : d ∉ ps := fun hm => h (List.mem_cons_of_mem p hm)
    simp [readUntil, hp, ih rest hps]

theorem parseLoopF_congr :
    ∀ (f1 f2 : Nat) (input buf : List Nat) (mode : ParseMode),
      input.length < f1 → input.length < f2 →
      parseLoopF f1 input buf mode = parseLoopF f2 input buf mode := by
  intro f1
  induction f1 with
  | zero => intro f2 input buf mode h1 _; exact absurd h1 (Nat.not_lt_zero _)
  | succ f ih =>
    intro f2 input buf mode h1 h2
    cases f2 with
    | zero => exact absurd h2 (Nat.not_lt_zero _)
    | succ g =>
      by_cases hn : input = []
      · simp [parseLoopF, hn]
      · have hlt := readUntil_snd_lt (ParseMode.delim mode) input hn
        by_cases hc : (buf ++ (readUntil (ParseMode.delim mode) input).1).length < 2 ∨
            (buf ++ (readUntil (ParseMode.delim mode) input).1).get?
              ((buf ++ (readUntil (ParseMode.delim mode) input).1).length - 2) ≠ some ESCAPE_CHAR
        · simp only [parseLoopF, if_neg hn, if_pos hc]
          have := ih g (readUntil (ParseMode.delim mode) input).2 []
            (ParseMode.toggle mode) (by omega) (by omega)
          rw [this]
        · simp only [parseLoopF, if_neg hn, if_neg hc]
          exact ih g _ _ _ (by omega) (by omega)

theorem parseLoopF_eq_parseLoop (f : Nat) (input buf : List Nat) (mode : ParseMode)
    (h : input.length < f) : parseLoopF f input buf mode = parseLoop input buf mode :=
  parseLoopF_congr f (input.length + 1) input buf mode h (Nat.lt_succ_self _)

theorem parseLoop_nil (buf : List Nat) (mode : ParseMode) : parseLoop [] buf mode = [] := by
  simp [parseLoop, parseLoopF]

theorem parseLoop_step_emit (input buf : List Nat) (mode : ParseMode) (c rest : List Nat)
    (h : input ≠ []) (hr : readUntil (ParseMode.delim mode) input = (c, rest))
    (hcond : (buf ++ c).length < 2 ∨
      (buf ++ c).get? ((buf ++ c).length - 2) ≠ some ESCAPE_CHAR) :
    parseLoop input buf mode = (mode, (buf ++ c).dropLast) ::
      parseLoop rest [] (ParseMode.toggle mode) := by
  have hlt : rest.length < input.length := by
    have := readUntil_snd_lt (ParseMode.delim mode) input h
    rw [hr] at this
    exact this
  show parseLoopF (input.length + 1) input buf mode = _
  simp only [parseLoopF, if_neg h, hr]
  rw [if_pos hcond]
  rw [parseLoopF_eq_parseLoop input.length rest [] (ParseMode.toggle mode) hlt]

theorem parseLoop_step_escape (input buf : List Nat) (mode : ParseMode) (c rest : List Nat)
    (h : input ≠ []) (hr : readUntil (ParseMode.delim mode) input = (c, rest))
    (h2 : ¬ (buf ++ c).length < 2)
    (h3 : (buf ++ c).get? ((buf ++ c).length - 2) = some ESCAPE_CHAR) :
    parseLoop input buf mode =
      parseLoop rest ((buf ++ c).eraseIdx ((buf ++ c).length - 2)) mode := by
  have hlt : rest.length < input.length := by
    have := readUntil_snd_lt (ParseMode.delim mode) input h
    rw [hr] at this
    exact this
  show parseLoopF (input.length + 1) input buf mode = _
  simp only [parseLoopF, if_neg h, hr]
  rw [if_neg (by push_neg; exact ⟨by omega, h3⟩)]
  exact parseLoopF_eq_parseLoop input.length rest _ mode hlt

theorem get?_append_pair : ∀ (l : List Nat) (a b : Nat), (l ++ [a, b]).get? l.length = some a := by
  intro l a b
  induction l with
  | nil => rfl
  | cons x xs ih => simpa using ih

theorem eraseIdx_append_pair :
    ∀ (l : List Nat) (a b : Nat), (l ++ [a, b]).eraseIdx l.length = l ++ [b] := by
  intro l a b
  induction l with
  | nil => rfl
  | cons x xs ih => simpa [List.eraseIdx] using ih

theorem dropLast_append_single (l : List Nat) (a : Nat) : (l ++ [a]).dropLast = l := by
  simp

theorem delim_ne_escape (mode : ParseMode) : ParseMode.delim mode ≠ ESCAPE_CHAR := by
  cases mode <;> decide

/-- Behavior of the loop on a buffer whose pending bytes end with an
escaped delimiter: only the escape byte is dropped, the delimiter stays
in the buffer as literal content, and scanning continues in the same
mode. -/
theorem parseLoop_escaped_delim (mode : ParseMode) (buf pre rest : List Nat)
    (hnd : ParseMode.delim mode ∉ pre) :
    parseLoop (pre ++ ESCAPE_CHAR :: ParseMode.delim mode :: rest) buf mode =
      parseLoop rest (buf ++ pre ++ [ParseMode.delim mode]) mode := by
  have hne : ParseMode.delim mode ∉ pre ++ [ESCAPE_CHAR] := by
    intro hmem
    rcases List.mem_append.mp hmem with hmem | hmem
    · exact hnd hmem
    · exact delim_ne_escape mode (List.mem_singleton.mp hmem)
  have hr : readUntil (ParseMode.delim mode) (pre ++ ESCAPE_CHAR :: ParseMode.delim mode :: rest)
      = ((pre ++ [ESCAPE_CHAR]) ++ [ParseMode.delim mode], rest) := by
    have := readUntil_to_delim (ParseMode.delim mode) (pre ++ [ESCAPE_CHAR]) rest hne
    simpa [List.append_assoc] using this
  have h0 : pre ++ ESCAPE_CHAR :: ParseMode.delim mode :: rest ≠ [] := by
    cases pre <;> simp
  have hbc : buf ++ ((pre ++ [ESCAPE_CHAR]) ++ [ParseMode.delim mode])
      = (buf ++ pre) ++ [ESCAPE_CHAR, ParseMode.delim mode] := by
    simp
  have hlen : ((buf ++ pre) ++ [ESCAPE_CHAR, ParseMode.delim mode]).length - 2
      = (buf ++ pre).length := by
    simp
    omega
  rw [parseLoop_step_escape _ _ _ _ _ h0 hr
    (by rw [hbc]; simp; omega)
    (by rw [hbc, hlen]; exact get?_append_pair (buf ++ pre) ESCAPE_CHAR (ParseMode.delim mode))]
  rw [hbc, hlen, eraseIdx_append_pair]

/-- Behavior of the loop when the rest of the input holds no target
delimiter and the pending buffer does not end with the escape byte
before end of input: the remaining bytes are emitted as a final segment
with the last byte removed. -/
theorem parseLoop_no_delim_emit (input buf : List Nat) (mode : ParseMode)
    (h0 : input ≠ []) (hnd : ParseMode.delim mode ∉ input)
    (hcond : (buf ++ input).length < 2 ∨
      (buf ++ input).get? ((buf ++ input).length - 2) ≠ some ESCAPE_CHAR) :
    parseLoop input buf mode = [(mode, (buf ++ input).dropLast)] := by
  rw [parseLoop_step_emit input buf mode input [] h0 (readUntil_no_delim _ _ hnd) hcond,
    parseLoop_nil]

/-- Behavior of the loop when the rest of the input holds no target
delimiter but the accumulated buffer ends with an escape byte just
before end of input: the escape byte is removed, the following read
produces zero bytes, and the whole remaining buffer is discarded. -/
theorem parseLoop_no_delim_escape (input buf : List Nat) (mode : ParseMode)
    (h0 : input ≠ []) (hnd : ParseMode.delim mode ∉ input)
    (h2 : ¬ (buf ++ input).length < 2)
    (h3 : (buf ++ input).get? ((buf ++ input).length - 2) = some ESCAPE_CHAR) :
    parseLoop input buf mode = [] := by
  rw [parseLoop_step_escape input buf mode input [] h0 (readUntil_no_delim _ _ hnd) h2 h3,
    parseLoop_nil]

theorem wmLookup_mem (id : List Nat) (e : Entry) :
    ∀ m : WordMap, wmLookup id m = some e → (id, e) ∈ m := by
  intro m
  induction m with
  | nil => intro h; exact absurd h (by simp [wmLookup])
  | cons p t ih =>
    intro h
    by_cases hk : p.1 = id
    · simp [wmLookup, hk] at h
      subst hk
      rw [← h]
      simp
    · simp [wmLookup, hk] at h
      exact List.mem_cons_of_mem p (ih h)

theorem wmLookup_none_of_not_key (id : List Nat) :
    ∀ m : WordMap, id ∉ m.map Prod.fst → wmLookup id m = none := by
  intro m
  induction m with
  | nil => intro _; rfl
  | cons p t ih =>
    intro h
    have hk : p.1 ≠ id := fun he => h (by simp [he])
    have ht : id ∉ t.map Prod.fst := fun hm => h (by simp [hm])
    simp [wmLookup, hk, ih ht]

theorem not_key_of_wmLookup_none (id : List Nat) :
    ∀ m : WordMap, wmLookup id m = none → id ∉ m.map Prod.fst := by
  intro m
  induction m with
  | nil => intro _; simp
  | cons p t ih =>
    intro h
    by_cases hk : p.1 = id
    · simp [wmLookup, hk] at h
    · simp [wmLookup, hk] at h
      intro hmem
      simp only [List.map_cons, List.mem_cons] at hmem
      rcases hmem with he | hm
      · exact hk he.symm
      · exact ih h hm

theorem wmLookup_modify_self (id : List Nat) (f : Entry → Entry) :
    ∀ m : WordMap, wmLookup id (wmModify id f m) = (wmLookup id m).map f := by
  intro m
  induction m with
  | nil => rfl
  | cons p t ih =>
    by_cases hk : p.1 = id
    · simp [wmLookup, wmModify, hk]
    · simp [wmLookup, wmModify, hk, ih]

theorem wmLookup_modify_ne (id id2 : List Nat) (f : Entry → Entry) (h : id2 ≠ id) :
    ∀ m : WordMap, wmLookup id2 (wmModify id f m) = wmLookup id2 m := by
  intro m
  induction m with
  | nil => rfl
  | cons p t ih =>
    by_cases hk : p.1 = id
    · simp [wmLookup, wmModify, hk, Ne.symm h]
    · simp [wmLookup, wmModify, hk, ih]

theorem wmLookup_remove_ne (id id2 : List Nat) (h : id2 ≠ id) :
    ∀ m : WordMap, wmLookup id2 (wmRemove id m) = wmLookup id2 m := by
  intro m
  induction m with
  | nil => rfl
  | cons p t ih =>
    by_cases hk : p.1 = id
    · simp [wmLookup, wmRemove, hk, Ne.symm h]
    · simp [wmLookup, wmRemove, hk, ih]

theorem wmLookup_remove_self (id : List Nat) :
    ∀ m : WordMap, keysNodup m → wmLookup id (wmRemove id m) = none := by
  intro m
  induction m with
  | nil => intro _; rfl
  | cons p t ih =>
    intro h
    have hn := (List.nodup_cons.mp h).1
    have ht := (List.nodup_cons.mp h).2
    by_cases hk : p.1 = id
    · simp only [wmRemove, if_pos hk]
      exact wmLookup_none_of_not_key id t (hk ▸ hn)
    · simp [wmLookup, wmRemove, hk, ih ht]

theorem wmModify_keys (id : List Nat) (f : Entry → Entry) :
    ∀ m : WordMap, (wmModify id f m).map Prod.fst = m.map Prod.fst := by
  intro m
  induction m with
  | nil => rfl
  | cons p t ih =>
    by_cases hk : p.1 = id
    · simp [wmModify, hk]
    · simp [wmModify, hk, ih]

theorem wmRemove_sublist (id : List Nat) :
    ∀ m : WordMap, List.Sublist (wmRemove id m) m := by
  intro m
  induction m with
  | nil => exact List.Sublist.refl []
  | cons p t ih =>
    by_cases hk : p.1 = id
    · simp only [wmRemove, if_pos hk]
      exact List.sublist_cons_self p t
    · simp only [wmRemove, if_neg hk]
      exact List.Sublist.cons₂ p ih

theorem mem_wmRemove (id : List Nat) (q : List Nat × Entry) (m : WordMap)
    (h : q ∈ wmRemove id m) : q ∈ m :=
  (wmRemove_sublist id m).mem h

theorem wmLookup_append_left (id : List Nat) (e : Entry) :
    ∀ m m2 : WordMap, wmLookup id m = some e → wmLookup id (m ++ m2) = some e := by
  intro m m2
  induction m with
  | nil => intro h; exact absurd h (by simp [wmLookup])
  | cons p t ih =>
    intro h
    by_cases hk : p.1 = id
    · simp [wmLookup, hk] at h
      simp [wmLookup, hk, h]
    · simp [wmLookup, hk] at h
      simp [wmLookup, hk, ih h]

theorem wmLookup_append_right (id : List Nat) :
    ∀ m m2 : WordMap, wmLookup id m = none → wmLookup id (m ++ m2) = wmLookup id m2 := by
  intro m m2
  induction m with
  | nil => intro _; rfl
  | cons p t ih =>
    intro h
    by_cases hk : p.1 = id
    · simp [wmLookup, hk] at h
    · simp [wmLookup, hk] at h
      simp [wmLookup, hk, ih h]

theorem wmLookup_add_identifier_present (id : List Nat) (p : Bool) (m : WordMap) (e : Entry)
    (h : wmLookup id m = some e) : add_identifier id p m = m := by
  simp [add_identifier, h]

theorem wmLookup_add_identifier_absent (id : List Nat) (p : Bool) (m : WordMap)
    (h : wmLookup id m = none) :
    add_identifier id p m = m ++ [(id, ([], p))] := by
  simp [add_identifier, h]

theorem wmLookup_add_identifier_ne (id id2 : List Nat) (p : Bool) (m : WordMap) (h : id2 ≠ id) :
    wmLookup id2 (add_identifier id p m) = wmLookup id2 m := by
  rw [add_identifier]
  by_cases hs : (wmLookup id m).isSome
  · simp [hs]
  · rw [if_neg hs]
    cases hm : wmLookup id2 m with
    | none =>
      rw [wmLookup_append_right id2 m _ hm]
      simp [wmLookup, Ne.symm h]
    | some e => exact wmLookup_append_left id2 e m _ hm

theorem wmLookup_add_word_present (id w : List Nat) (p : Bool) (m : WordMap) (e : Entry)
    (h : wmLookup id m = some e) :
    wmLookup id (add_word id w p m) = some (poolInsert w e.1, e.2) := by
  rw [add_word, wmLookup_add_identifier_present id p m e h, wmLookup_modify_self, h]
  rfl

theorem wmLookup_add_word_absent (id w : List Nat) (p : Bool) (m : WordMap)
    (h : wmLookup id m = none) :
    wmLookup id (add_word id w p m) = some ([w], p) := by
  rw [add_word, wmLookup_add_identifier_absent id p m h, wmLookup_modify_self,
    wmLookup_append_right id m _ h]
  simp [wmLookup, poolInsert]

theorem wmLookup_add_word_ne (id id2 w : List Nat) (p : Bool) (m : WordMap) (h : id2 ≠ id) :
    wmLookup id2 (add_word id w p m) = wmLookup id2 m := by
  rw [add_word, wmLookup_modify_ne id id2 _ h, wmLookup_add_identifier_ne id id2 p m h]

theorem poolInsert_ne_nil (w : List Nat) (pool : List (List Nat)) : poolInsert w pool ≠ [] := by
  by_cases hm : w ∈ pool
  · simp only [poolInsert, if_pos hm]
    intro he
    rw [he] at hm
    exact absurd hm (List.not_mem_nil w)
  · simp [poolInsert, hm]

theorem poolInsert_sublist (w : List Nat) (pool : List (List Nat)) :
    List.Sublist pool (poolInsert w pool) := by
  by_cases hm : w ∈ pool
  · simp [poolInsert, hm]
  · simp only [poolInsert, if_neg hm]
    exact List.sublist_append_left pool [w]

theorem wmModify_append_absent (id : List Nat) (f : Entry → Entry) (e : Entry) :
    ∀ m : WordMap, wmLookup id m = none →
      wmModify id f (m ++ [(id, e)]) = m ++ [(id, f e)] := by
  intro m
  induction m with
  | nil => intro _; simp [wmModify]
  | cons p t ih =>
    intro h
    by_cases hk : p.1 = id
    · simp [wmLookup, hk] at h
    · simp [wmLookup, hk] at h
      simp [wmModify, hk, ih h]

theorem take_word_absent (id : List Nat) (m : WordMap) (h : wmLookup id m = none) :
    take_word id m = none := by
  simp [take_word, h]

theorem take_word_empty_pool (id : List Nat) (m : WordMap) (e : Entry)
    (h : wmLookup id m = some e) (hp : e.1 = []) : take_word id m = none := by
  simp [take_word, h, hp]

theorem take_word_persistent (id : List Nat) (m : WordMap) (e : Entry) (w : List Nat)
    (h : wmLookup id m = some e) (hpe : e.2 = true) (hw : e.1.head? = some w) :
    take_word id m = some (w, m) := by
  simp [take_word, h, hw, hpe]

theorem take_word_last (id : List Nat) (m : WordMap) (e : Entry) (w : List Nat)
    (h : wmLookup id m = some e) (hpe : e.2 = false) (hw : e.1.head? = some w)
    (he : e.1.erase w = []) : take_word id m = some (w, wmRemove id m) := by
  simp [take_word, h, hw, hpe, he]

theorem take_word_more (id : List Nat) (m : WordMap) (e : Entry) (w : List Nat)
    (h : wmLookup id m = some e) (hpe : e.2 = false) (hw : e.1.head? = some w)
    (he : e.1.erase w ≠ []) :
    take_word id m = some (w, wmModify id (fun e2 => (e.1.erase w, e2.2)) m) := by
  simp [take_word, h, hw, hpe, he]

/-- Inversion of a successful take_word: the identifier was present, the
word returned is the head of its pool, and the resulting map is the one
of the three branches of the source. -/
theorem take_word_inv (id : List Nat) (m m2 : WordMap) (w : List Nat)
    (h : take_word id m = some (w, m2)) :
    ∃ e, wmLookup id m = some e ∧ e.1.head? = some w ∧
      ((e.2 = true ∧ m2 = m) ∨
        (e.2 = false ∧ e.1.erase w = [] ∧ m2 = wmRemove id m) ∨
        (e.2 = false ∧ e.1.erase w ≠ [] ∧
          m2 = wmModify id (fun e2 => (e.1.erase w, e2.2)) m)) := by
  cases hl : wmLookup id m with
  | none => rw [take_word_absent id m hl] at h; exact absurd h (by simp)
  | some e =>
    simp only [take_word, hl] at h
    cases hw : e.1.head? with
    | none => simp only [hw] at h; exact absurd h (by simp)
    | some w0 =>
      simp only [hw] at h
      cases hpe : e.2 with
      | true =>
        rw [if_pos (by simp [hpe])] at h
        have h1 := Option.some.inj h
        have hwa : w0 = w := congrArg Prod.fst h1
        have hmb : m = m2 := congrArg Prod.snd h1
        exact ⟨e, rfl, hwa ▸ hw, Or.inl ⟨hpe, hmb.symm⟩⟩
      | false =>
        rw [if_neg (by simp [hpe])] at h
        by_cases he : (e.1.erase w0).isEmpty
        · rw [if_pos he] at h
          have h1 := Option.some.inj h
          have hwa : w0 = w := congrArg Prod.fst h1
          have hmb : wmRemove id m = m2 := congrArg Prod.snd h1
          exact ⟨e, rfl, hwa ▸ hw,
            Or.inr (Or.inl ⟨hpe, hwa ▸ List.isEmpty_iff.mp he, hmb.symm⟩)⟩
        · rw [if_neg he] at h
          have h1 := Option.some.inj h
          have hwa : w0 = w := congrArg Prod.fst h1
          have hmb : wmModify id (fun e2 => (e.1.erase w0, e2.2)) m = m2 :=
            congrArg Prod.snd h1
          refine ⟨e, rfl, hwa ▸ hw, Or.inr (Or.inr ⟨hpe, ?_, ?_⟩)⟩
          · intro hnil
            rw [← hwa] at hnil
            exact he (by simp [hnil])
          · rw [← hmb, hwa]

theorem take_word_lookup_ne (id id2 : List Nat) (m m2 : WordMap) (w : List Nat)
    (h : take_word id m = some (w, m2)) (hne : id2 ≠ id) :
    wmLookup id2 m2 = wmLookup id2 m := by
  obtain ⟨e, _, _, hc⟩ := take_word_inv id m m2 w h
  rcases hc with ⟨_, hm⟩ | ⟨_, _, hm⟩ | ⟨_, _, hm⟩
  · rw [hm]
  · rw [hm]
    exact wmLookup_remove_ne id id2 hne m
  · rw [hm]
    exact wmLookup_modify_ne id id2 _ hne m

theorem bankInv_wmModify (id : List Nat) (f : Entry → Entry) (hf : ∀ e, (f e).1 ≠ []) :
    ∀ m : WordMap, BankInv m → BankInv (wmModify id f m) := by
  intro m
  induction m with
  | nil => intro h; exact h
  | cons p t ih =>
    intro h q hq
    by_cases hk : p.1 = id
    · simp only [wmModify, if_pos hk] at hq
      rcases List.mem_cons.mp hq with he | hm
      · rw [he]
        exact hf p.2
      · exact h q (List.mem_cons_of_mem p hm)
    · simp only [wmModify, if_neg hk] at hq
      rcases List.mem_cons.mp hq with he | hm
      · exact h q (he ▸ List.mem_cons_self p t)
      · exact ih (fun r hr => h r (List.mem_cons_of_mem p hr)) q hm

theorem bankInv_wmRemove (id : List Nat) (m : WordMap) (h : BankInv m) :
    BankInv (wmRemove id m) :=
  fun q hq => h q (mem_wmRemove id q m hq)

theorem bankInv_add_word (id w : List Nat) (p : Bool) (m : WordMap) (h : BankInv m) :
    BankInv (add_word id w p m) := by
  rw [add_word, add_identifier]
  by_cases hs : (wmLookup id m).isSome
  · rw [if_pos hs]
    exact bankInv_wmModify id _ (fun e => poolInsert_ne_nil w e.1) m h
  · rw [if_neg hs]
    have hn : wmLookup id m = none := by
      cases hl : wmLookup id m with
      | none => rfl
      | some e => rw [hl] at hs; exact absurd rfl hs
    rw [wmModify_append_absent id _ _ m hn]
    intro q hq
    rcases List.mem_append.mp hq with hm | hm
    · exact h q hm
    · rw [List.mem_singleton.mp hm]
      exact poolInsert_ne_nil w []

theorem bankInv_take_word (id : List Nat) (m m2 : WordMap) (w : List Nat)
    (hinv : BankInv m) (h : take_word id m = some (w, m2)) : BankInv m2 := by
  obtain ⟨e, _, _, hc⟩ := take_word_inv id m m2 w h
  rcases hc with ⟨_, hm⟩ | ⟨_, _, hm⟩ | ⟨_, hne, hm⟩
  · exact hm ▸ hinv
  · exact hm ▸ bankInv_wmRemove id m hinv
  · exact hm ▸ bankInv_wmModify id _ (fun _ => hne) m hinv

theorem take_word_isSome (id : List Nat) (m : WordMap) (e : Entry)
    (hinv : BankInv m) (h : wmLookup id m = some e) : (take_word id m).isSome = true := by
  have hne : e.1 ≠ [] := hinv (id, e) (wmLookup_mem id e m h)
  cases hp : e.1 with
  | nil => exact absurd hp hne
  | cons w ws =>
    have hw : e.1.head? = some w := by rw [hp]; rfl
    cases hpe : e.2 with
    | true => rw [take_word_persistent id m e w h hpe hw]; rfl
    | false =>
      by_cases her : e.1.erase w = []
      · rw [take_word_last id m e w h hpe hw her]; rfl
      · rw [take_word_more id m e w h hpe hw her]; rfl

theorem bankInv_input_parse_containing (text : List Nat) (s : InState)
    (h : BankInv s.word_map) : BankInv (input_parse_containing text s).word_map := by
  rw [input_parse_containing]
  cases collectParse text with
  | none => exact h
  | some r => exact bankInv_add_word r.2.1 (s.answers.headD []) r.2.2 s.word_map h

theorem bankInv_parse_segments_input :
    ∀ (segs : List (ParseMode × List Nat)) (s : InState), BankInv s.word_map →
      BankInv (parse_segments_input segs s).word_map := by
  intro segs
  induction segs with
  | nil => intro s h; exact h
  | cons seg r ih =>
    intro s h
    cases seg with
    | mk mode t =>
      cases mode with
      | Preceding => exact ih s h
      | Containing => exact ih _ (bankInv_input_parse_containing t s h)

theorem bankInv_prompt_for_words_in (input : List Nat) (answers : List (List Nat)) :
    BankInv (prompt_for_words_in input answers) :=
  bankInv_parse_segments_input (parse_file input) ⟨answers, []⟩ (fun _ hq => absurd hq (by simp))

theorem keysNodup_wmModify (id : List Nat) (f : Entry → Entry) (m : WordMap)
    (h : keysNodup m) : keysNodup (wmModify id f m) := by
  rw [keysNodup, wmModify_keys]
  exact h

theorem keysNodup_wmRemove (id : List Nat) (m : WordMap) (h : keysNodup m) :
    keysNodup (wmRemove id m) :=
  List.Nodup.sublist ((wmRemove_sublist id m).map Prod.fst) h

theorem keysNodup_add_word (id w : List Nat) (p : Bool) (m : WordMap) (h : keysNodup m) :
    keysNodup (add_word id w p m) := by
  rw [add_word, add_identifier]
  by_cases hs : (wmLookup id m).isSome
  · rw [if_pos hs]
    exact keysNodup_wmModify id _ m h
  · rw [if_neg hs]
    have hn : wmLookup id m = none := by
      cases hl : wmLookup id m with
      | none => rfl
      | some e => rw [hl] at hs; exact absurd rfl hs
    apply keysNodup_wmModify
    rw [keysNodup, List.map_append]
    simp only [List.map_cons, List.map_nil]
    rw [List.nodup_append]
    exact ⟨h, List.nodup_singleton id, by
      intro a ha hb
      rw [List.mem_singleton.mp hb] at ha
      exact not_key_of_wmLookup_none id m hn ha⟩

theorem keysNodup_take_word (id : List Nat) (m m2 : WordMap) (w : List Nat)
    (hn : keysNodup m) (h : take_word id m = some (w, m2)) : keysNodup m2 := by
  obtain ⟨e, _, _, hc⟩ := take_word_inv id m m2 w h
  rcases hc with ⟨_, hm⟩ | ⟨_, _, hm⟩ | ⟨_, _, hm⟩
  · exact hm ▸ hn
  · exact hm ▸ keysNodup_wmRemove id m hn
  · exact hm ▸ keysNodup_wmModify id _ m hn

theorem persistent_entry_applyOp (op : Op) (id : List Nat) (m : WordMap) (e : Entry)
    (h : wmLookup id m = some e) (hp : e.2 = true) :
    ∃ e2, wmLookup id (applyOp op m) = some e2 ∧ e2.2 = true ∧ List.Sublist e.1 e2.1 := by
  cases op with
  | add id2 w p =>
    by_cases he : id2 = id
    · subst he
      exact ⟨(poolInsert w e.1, e.2), wmLookup_add_word_present id2 w p m e h,
        hp, poolInsert_sublist w e.1⟩
    · have hne : id ≠ id2 := fun hx => he hx.symm
      refine ⟨e, ?_, hp, List.Sublist.refl e.1⟩
      rw [applyOp]
      rw [wmLookup_add_word_ne id2 id w p m hne]
      exact h
  | take id2 =>
    cases ht : take_word id2 m with
    | none =>
      refine ⟨e, ?_, hp, List.Sublist.refl e.1⟩
      simp only [applyOp, ht]
      exact h
    | some q =>
      have ht2 : take_word id2 m = some (q.1, q.2) := ht
      by_cases he : id2 = id
      · subst he
        obtain ⟨e3, hl3, _, hc⟩ := take_word_inv id2 m q.2 q.1 ht2
        have hee : e3 = e := Option.some.inj (hl3.symm.trans h)
        rcases hc with ⟨_, hm⟩ | ⟨hpe, _, _⟩ | ⟨hpe, _, _⟩
        · refine ⟨e, ?_, hp, List.Sublist.refl e.1⟩
          simp only [applyOp, ht]
          rw [hm]
          exact h
        · rw [hee] at hpe
          rw [hp] at hpe
          exact absurd hpe (by simp)
        · rw [hee] at hpe
          rw [hp] at hpe
          exact absurd hpe (by simp)
      · have hne : id ≠ id2 := fun hx => he hx.symm
        refine ⟨e, ?_, hp, List.Sublist.refl e.1⟩
        simp only [applyOp, ht]
        rw [take_word_lookup_ne id2 id m q.2 q.1 ht2 hne]
        exact h

theorem persistent_entry_applyOps :
    ∀ (ops : List Op) (id : List Nat) (m : WordMap) (e : Entry),
      wmLookup id m = some e → e.2 = true →
      ∃ e2, wmLookup id (applyOps ops m) = some e2 ∧ e2.2 = true ∧ List.Sublist e.1 e2.1 := by
  intro ops
  induction ops with
  | nil => intro id m e h hp; exact ⟨e, h, hp, List.Sublist.refl e.1⟩
  | cons op rest ih =>
    intro id m e h hp
    obtain ⟨e3, h3, hp3, hs3⟩ := persistent_entry_applyOp op id m e h hp
    obtain ⟨e2, h2, hp2, hs2⟩ := ih id (applyOp op m) e3 h3 hp3
    exact ⟨e2, h2, hp2, List.Sublist.trans hs3 hs2⟩

theorem takeN_nonpersistent :
    ∀ (pool : List (List Nat)) (id : List Nat) (m : WordMap), keysNodup m →
      wmLookup id m = some (pool, false) → pool ≠ [] →
      ∃ m2, takeN pool.length id m = some (pool, m2) ∧ wmLookup id m2 = none ∧
        ∀ id2, id2 ≠ id → wmLookup id2 m2 = wmLookup id2 m := by
  intro pool
  induction pool with
  | nil => intro id m _ _ hne; exact absurd rfl hne
  | cons w rest ih =>
    intro id m hkn h _
    have hw : ((w :: rest, false) : Entry).1.head? = some w := rfl
    have herase : ((w :: rest, false) : Entry).1.erase w = rest := List.erase_cons_head w rest
    by_cases hr : rest = []
    · subst hr
      have ht := take_word_last id m (w :: [], false) w h rfl hw herase
      refine ⟨wmRemove id m, ?_, wmLookup_remove_self id m hkn,
        fun id2 hne => wmLookup_remove_ne id id2 hne m⟩
      simp [takeN, ht]
    · have ht := take_word_more id m (w :: rest, false) w h rfl hw
        (by rw [herase]; exact hr)
      rw [herase] at ht
      have hkn1 : keysNodup (wmModify id (fun e2 => (rest, e2.2)) m) :=
        keysNodup_wmModify id _ m hkn
      have hl1 : wmLookup id (wmModify id (fun e2 => (rest, e2.2)) m) = some (rest, false) := by
        rw [wmLookup_modify_self, h]
        rfl
      obtain ⟨m2, h1, h2, h3⟩ := ih id (wmModify id (fun e2 => (rest, e2.2)) m) hkn1 hl1 hr
      refine ⟨m2, ?_, h2, ?_⟩
      · simp [takeN, ht, h1]
      · intro id2 hne
        rw [h3 id2 hne, wmLookup_modify_ne id id2 _ hne m]

/-- Claim C1: under the bank invariant that every stored entry has a
non-empty pool (which holds of every reachable bank, see claim C10),
take_word fails exactly when the identifier has no entry in the bank and
succeeds for every present identifier.  The concrete conjuncts replay
the specification scenario for the template with the same one-shot
placeholder twice and the same operator answer both times: the pool
collapses to a single word by set semantics, the first rendering
occurrence consumes it and removes the entry, and the second occurrence
fails (and so does the whole pipeline) instead of substituting an empty
string. -/
theorem c1_take_word_unknown_identifier :
    (∀ (id : List Nat) (m : WordMap), BankInv m →
      (take_word id m = none ↔ wmLookup id m = none)) ∧
    prompt_for_words_in tmplXandX [[99, 97, 116], [99, 97, 116]] =
      [([120], ([[99, 97, 116]], false))] ∧
    take_word [120] [([120], ([[99, 97, 116]], false))] = some ([99, 97, 116], []) ∧
    take_word [120] ([] : WordMap) = none ∧
    radlibs tmplXandX [[99, 97, 116], [99, 97, 116]] = none := by
  refine ⟨?_, by decide, by decide, by decide, by decide⟩
  intro id m hinv
  constructor
  · intro ht
    cases hl : wmLookup id m with
    | none => rfl
    | some e =>
      have := take_word_isSome id m e hinv hl
      rw [ht] at this
      exact absurd this (by simp)
  · intro hl
    exact take_word_absent id m hl

theorem c1_witness :
    take_word [121] ([] : WordMap) = none ↔ wmLookup [121] ([] : WordMap) = none :=
  c1_take_word_unknown_identifier.1 [121] [] (by decide)

/-- Claim C2: the per-entry invariants of the word bank.  Adding a word
never removes an entry (first conjunct) and never shrinks a pool or
flips a persistence flag (second conjunct); a successful take on a
non-persistent entry removes the entry exactly when its pool becomes
empty, and otherwise leaves the entry with the element removed (third
conjunct); a take never touches entries of other identifiers (fourth
conjunct); and across every sequence of add and take operations a
persistent entry stays in the bank, stays persistent, and its pool never
shrinks (fifth conjunct). -/
theorem c2_entry_invariants :
    (∀ (id w : List Nat) (p : Bool) (m : WordMap) (id2 : List Nat),
      (wmLookup id2 m).isSome = true → (wmLookup id2 (add_word id w p m)).isSome = true) ∧
    (∀ (id w : List Nat) (p : Bool) (m : WordMap) (id2 : List Nat) (e e2 : Entry),
      wmLookup id2 m = some e → wmLookup id2 (add_word id w p m) = some e2 →
      List.Sublist e.1 e2.1 ∧ e2.2 = e.2) ∧
    (∀ (id : List Nat) (m m2 : WordMap) (w : List Nat) (e : Entry), keysNodup m →
      take_word id m = some (w, m2) → wmLookup id m = some e → e.2 = false →
      ((wmLookup id m2 = none ↔ e.1.erase w = []) ∧
        ∀ e2, wmLookup id m2 = some e2 → e2.1 = e.1.erase w ∧ e2.2 = false)) ∧
    (∀ (id : List Nat) (m m2 : WordMap) (w : List Nat) (id2 : List Nat),
      take_word id m = some (w, m2) → id2 ≠ id → wmLookup id2 m2 = wmLookup id2 m) ∧
    (∀ (id : List Nat) (e : Entry) (m : WordMap) (ops : List Op),
      wmLookup id m = some e → e.2 = true →
      ∃ e2, wmLookup id (applyOps ops m) = some e2 ∧ e2.2 = true ∧
        List.Sublist e.1 e2.1) := by
  refine ⟨?_, ?_, ?_, ?_, ?_⟩
  · intro id w p m id2 h
    by_cases he : id2 = id
    · subst he
      cases hl : wmLookup id2 m with
      | none => rw [hl] at h; exact absurd h (by simp)
      | some e => rw [wmLookup_add_word_present id2 w p m e hl]; rfl
    · rw [wmLookup_add_word_ne id id2 w p m he]
      exact h
  · intro id w p m id2 e e2 h1 h2
    by_cases he : id2 = id
    · subst he
      rw [wmLookup_add_word_present id2 w p m e h1] at h2
      have h3 := Option.some.inj h2
      rw [← h3]
      exact ⟨poolInsert_sublist w e.1, rfl⟩
    · rw [wmLookup_add_word_ne id id2 w p m he] at h2
      have h3 := Option.some.inj (h1.symm.trans h2)
      rw [← h3]
      exact ⟨List.Sublist.refl e.1, rfl⟩
  · intro id m m2 w e hkn ht hl hpe
    obtain ⟨e3, hl3, _, hc⟩ := take_word_inv id m m2 w ht
    have hee : e3 = e := Option.some.inj (hl3.symm.trans hl)
    rw [hee] at hc
    rcases hc with ⟨hp3, _⟩ | ⟨_, her, hm⟩ | ⟨_, her, hm⟩
    · rw [hpe] at hp3
      exact absurd hp3 (by simp)
    · subst hm
      constructor
      · exact ⟨fun _ => her, fun _ => wmLookup_remove_self id m hkn⟩
      · intro e2 h2
        rw [wmLookup_remove_self id m hkn] at h2
        exact absurd h2 (by simp)
    · subst hm
      have hl2 : wmLookup id (wmModify id (fun e2 => (e.1.erase w, e2.2)) m) =
          some (e.1.erase w, e.2) := by
        rw [wmLookup_modify_self, hl]
        rfl
      constructor
      · rw [hl2]
        exact ⟨fun h2 => absurd h2 (by simp), fun h2 => absurd h2 her⟩
      · intro e2 h2
        rw [hl2] at h2
        have h3 := Option.some.inj h2
        rw [← h3]
        exact ⟨rfl, hpe⟩
  · intro id m m2 w id2 ht hne
    exact take_word_lookup_ne id id2 m m2 w ht hne
  · intro id e m ops h hp
    exact persistent_entry_applyOps ops id m e h hp

theorem c2_witness :
    (wmLookup [120] (add_word [122] [97] false [([120], ([[99]], true))])).isSome = true :=
  c2_entry_invariants.1 [122] [97] false [([120], ([[99]], true))] [120] (by decide)

/-- Claim C3: taking a word for a persistent identifier present in the
bank leaves the bank unchanged and returns the head of its pool, so any
number of repeated take_word calls with no interleaved write returns the
identical word every time; a persistent placeholder referenced several
times in the rendering pass therefore substitutes the same word at every
occurrence. -/
theorem c3_persistent_repeat_read :
    ∀ (id : List Nat) (m : WordMap) (e : Entry) (w : List Nat),
      wmLookup id m = some e → e.2 = true → e.1.head? = some w →
      ∀ n : Nat, takeN n id m = some (List.replicate n w, m) := by
  intro id m e w hl hp hw n
  induction n with
  | zero => rfl
  | succ k ih =>
    have ht := take_word_persistent id m e w hl hp hw
    simp [takeN, ht, ih, List.replicate_succ]

theorem c3_witness :
    takeN 3 [109] [([109], ([[104], [106]], true))] =
      some (List.replicate 3 [104], [([109], ([[104], [106]], true))]) :=
  c3_persistent_repeat_read [109] [([109], ([[104], [106]], true))]
    ([[104], [106]], true) [104] (by decide) (by decide) (by decide) 3

/-- Claim C8: a non-persistent identifier whose pool holds n pairwise
distinct words, taken n times, yields exactly those n words with no
repetition, every call succeeding, and afterwards the entry is gone from
the bank while all other identifiers are untouched. -/
theorem c8_nonpersistent_consumption :
    ∀ (id : List Nat) (m : WordMap) (pool : List (List Nat)),
      keysNodup m → wmLookup id m = some (pool, false) → pool.Nodup → pool ≠ [] →
      ∃ m2, takeN pool.length id m = some (pool, m2) ∧ pool.Nodup ∧
        wmLookup id m2 = none ∧
        ∀ id2, id2 ≠ id → wmLookup id2 m2 = wmLookup id2 m := by
  intro id m pool hkn hl hnd hne
  obtain ⟨m2, h1, h2, h3⟩ := takeN_nonpersistent pool id m hkn hl hne
  exact ⟨m2, h1, hnd, h2, h3⟩

theorem c8_witness :
    ∃ m2, takeN 2 [120] [([120], ([[97], [98]], false))] = some ([[97], [98]], m2) ∧
      ([[97], [98]] : List (List Nat)).Nodup ∧ wmLookup [120] m2 = none ∧
      ∀ id2, id2 ≠ [120] → wmLookup id2 m2 = wmLookup id2 [([120], ([[97], [98]], false))] := by
  have h := c8_nonpersistent_consumption [120] [([120], ([[97], [98]], false))]
    [[97], [98]] (by decide) (by decide) (by decide) (by decide)
  simpa using h

/-- Claim C9: whenever the collection-pass grammar does not skip a
placeholder text, the identifier computed by the rendering-pass grammar
equals the identifier the collection pass stored under, so both passes
resolve the placeholder to the same bank entry. -/
theorem c9_identifier_agreement :
    ∀ (text pr id : List Nat) (pe : Bool),
      collectParse text = some (pr, (id, pe)) → output_ident text = id := by
  intro text pr id pe h
  by_cases hm : text.head? = some IDENTIFIER
  · rw [collectParse, if_pos hm] at h
    by_cases hl : (splitSep text).length ≤ 1
    · rw [if_pos hl] at h
      exact absurd h (by simp)
    · rw [if_neg hl] at h
      have h2 := Option.some.inj h
      have h3 : (splitSep text).headD [] = id := congrArg (fun q => q.2.1) h2
      rw [output_ident, if_pos hm]
      exact h3
  · rw [collectParse, if_neg hm] at h
    have h2 := Option.some.inj h
    have h3 : text = id := congrArg (fun q => q.2.1) h2
    rw [output_ident, if_neg hm]
    exact h3

theorem c9_witness : output_ident [64, 97, 32, 98] = [64, 97] :=
  c9_identifier_agreement [64, 97, 32, 98] [98] [64, 97] true (by decide)

/-- Claim C10: every identifier present in the word bank maps to a
non-empty pool: the invariant holds of the empty initial bank, is
preserved by add_word and by a successful take_word, holds of the bank
produced by any collection pass, and makes the empty-pool unwrap branch
of take_word unreachable: take_word cannot fail on a present
identifier. -/
theorem c10_bank_pools_nonempty :
    BankInv ([] : WordMap) ∧
    (∀ (id w : List Nat) (p : Bool) (m : WordMap), BankInv m →
      BankInv (add_word id w p m)) ∧
    (∀ (id : List Nat) (m m2 : WordMap) (w : List Nat), BankInv m →
      take_word id m = some (w, m2) → BankInv m2) ∧
    (∀ (input : List Nat) (answers : List (List Nat)),
      BankInv (prompt_for_words_in input answers)) ∧
    (∀ (id : List Nat) (m : WordMap) (e : Entry), BankInv m → wmLookup id m = some e →
      (take_word id m).isSome = true) :=
  ⟨fun _ hq => absurd hq (by simp),
    fun id w p m h => bankInv_add_word id w p m h,
    fun id m m2 w h ht => bankInv_take_word id m m2 w h ht,
    bankInv_prompt_for_words_in,
    fun id m e h hl => take_word_isSome id m e h hl⟩

theorem c10_witness : (take_word [120] [([120], ([[99]], false))]).isSome = true :=
  c10_bank_pools_nonempty.2.2.2.2 [120] [([120], ([[99]], false))] ([[99]], false)
    (by decide) (by decide)

/-- Claim C4: escape handling in the segmenter.  When the byte before
the target delimiter is the escape byte, only the escape byte is dropped
from the buffer, the delimiter is kept as literal content, and scanning
continues in the same mode (first conjunct); the escape byte itself
cannot be escaped: two escape bytes before a delimiter still escape the
delimiter, keeping the first escape byte as content (second conjunct);
and a literal segment written with an escaped opening brace renders with
a plain brace (third conjunct, on the template a backslash-brace b brace
x close-brace with a bank holding cat for x). -/
theorem c4_escaped_delimiter :
    (∀ (mode : ParseMode) (buf pre rest : List Nat), ParseMode.delim mode ∉ pre →
      parseLoop (pre ++ ESCAPE_CHAR :: ParseMode.delim mode :: rest) buf mode =
        parseLoop rest (buf ++ pre ++ [ParseMode.delim mode]) mode) ∧
    (∀ (mode : ParseMode) (buf pre rest : List Nat), ParseMode.delim mode ∉ pre →
      parseLoop (pre ++ ESCAPE_CHAR :: ESCAPE_CHAR :: ParseMode.delim mode :: rest) buf mode =
        parseLoop rest (buf ++ pre ++ ESCAPE_CHAR :: [ParseMode.delim mode]) mode) ∧
    substitute_words_in [97, 92, 123, 98, 123, 120, 125] [([120], ([[99, 97, 116]], false))] =
      some [97, 123, 98, 99, 97, 116, 10] := by
  refine ⟨fun mode buf pre rest hnd => parseLoop_escaped_delim mode buf pre rest hnd,
    ?_, by decide⟩
  intro mode buf pre rest hnd
  have hnd2 : ParseMode.delim mode ∉ pre ++ [ESCAPE_CHAR] := by
    intro hmem
    rcases List.mem_append.mp hmem with hm | hm
    · exact hnd hm
    · exact delim_ne_escape mode (List.mem_singleton.mp hm)
  have h := parseLoop_escaped_delim mode buf (pre ++ [ESCAPE_CHAR]) rest hnd2
  simpa [List.append_assoc] using h

theorem c4_witness :
    parseLoop ([97] ++ ESCAPE_CHAR :: ParseMode.delim ParseMode.Preceding :: [120])
        [] ParseMode.Preceding =
      parseLoop [120] ([] ++ [97] ++ [ParseMode.delim ParseMode.Preceding])
        ParseMode.Preceding :=
  c4_escaped_delimiter.1 ParseMode.Preceding [] [97] [120] (by decide)

/-- Claim C5 counterexample: the unterminated trailing literal segment of
the three-byte input a b c is not silently dropped: the segmenter emits
it as a Preceding segment with its final byte removed. -/
theorem c5_counterexample :
    parse_file [97, 98, 99] = [(ParseMode.Preceding, [97, 98])] ∧
      parse_file [97, 98, 99] ≠ [] := by decide

/-- Claim C5 as amended: a read that produces zero bytes stops the
segmenter and discards any pending buffer (first conjunct); but a final
read that reaches end of input with a non-empty chunk is handled like a
delimiter-terminated read: unless the accumulated buffer's
second-to-last byte is the escape byte, the buffer minus its final byte
is emitted as a segment (second conjunct); when that byte is the escape
byte, the escape is dropped and the following zero-byte read discards
the rest of the buffer, so nothing is emitted (third conjunct). -/
theorem c5_end_of_input :
    (∀ (buf : List Nat) (mode : ParseMode), parseLoop [] buf mode = []) ∧
    (∀ (input buf : List Nat) (mode : ParseMode), ParseMode.delim mode ∉ input →
      input ≠ [] →
      ((buf ++ input).length < 2 ∨
        (buf ++ input).get? ((buf ++ input).length - 2) ≠ some ESCAPE_CHAR) →
      parseLoop input buf mode = [(mode, (buf ++ input).dropLast)]) ∧
    (∀ (input buf : List Nat) (mode : ParseMode), ParseMode.delim mode ∉ input →
      input ≠ [] → ¬ (buf ++ input).length < 2 →
      (buf ++ input).get? ((buf ++ input).length - 2) = some ESCAPE_CHAR →
      parseLoop input buf mode = []) :=
  ⟨parseLoop_nil,
    fun input buf mode hnd hne hcond => parseLoop_no_delim_emit input buf mode hne hnd hcond,
    fun input buf mode hnd hne h2 h3 => parseLoop_no_delim_escape input buf mode hne hnd h2 h3⟩

theorem c5_witness :
    parseLoop [97, 98, 99] [] ParseMode.Preceding =
      [(ParseMode.Preceding, ([] ++ [97, 98, 99]).dropLast)] :=
  c5_end_of_input.2.1 [97, 98, 99] [] ParseMode.Preceding (by decide) (by decide) (by decide)

/-- Claim C6 counterexample: the delimiter-free two-byte template h i
renders as its first byte plus the newline, not as the full literal
content plus the newline: the segmenter pops the final byte of the
unterminated literal segment. -/
theorem c6_counterexample :
    substitute_words_in [104, 105] [] = some [104, 10] ∧
      substitute_words_in [104, 105] [] ≠ some ([104, 105] ++ [10]) := by decide

/-- Claim C6 as amended: a non-empty template holding no opening
delimiter, whose second-to-last byte is not the escape byte, renders as
the template content with its final byte removed, followed by the
trailing newline, for every word bank; the empty template renders as
just the newline. -/
theorem c6_literal_template :
    (∀ (input : List Nat) (m : WordMap), PROMPT_START ∉ input → input ≠ [] →
      (input.length < 2 ∨ input.get? (input.length - 2) ≠ some ESCAPE_CHAR) →
      substitute_words_in input m = some (input.dropLast ++ [10])) ∧
    (∀ m : WordMap, substitute_words_in [] m = some [10]) := by
  constructor
  · intro input m hnd hne hcond
    have hseg : parse_file input = [(ParseMode.Preceding, input.dropLast)] := by
      rw [parse_file]
      have h := parseLoop_no_delim_emit input [] ParseMode.Preceding hne
        (by simpa [ParseMode.delim] using hnd) (by simpa using hcond)
      simpa using h
    rw [substitute_words_in, hseg]
    simp [parse_segments_output]
  · intro m
    rw [substitute_words_in, parse_file, parseLoop_nil]
    simp [parse_segments_output]

theorem c6_witness :
    substitute_words_in [104, 105] [] = some ([104, 105].dropLast ++ [10]) :=
  c6_literal_template.1 [104, 105] [] (by decide) (by decide) (by decide)

/-- Claim C7 counterexample: the placeholder text of an at sign followed
by one space is not silently skipped by the collection pass: it splits
into two tokens (the second empty), consumes the pending operator
answer, and creates a bank entry under the bare marker identifier. -/
theorem c7_counterexample :
    input_parse_containing [64, 32] ⟨[[119]], []⟩ = ⟨[], [([64], ([[119]], true))]⟩ ∧
      input_parse_containing [64, 32] ⟨[[119]], []⟩ ≠ ⟨[[119]], []⟩ := by decide

/-- Claim C7 as amended: a placeholder whose text starts with the marker
and splits into fewer than two space-separated tokens (that is, holds no
separator at all, as in the bare marker placeholder) is silently skipped
by the collection pass: no answer is consumed and the bank is untouched.
The marker followed by a space, however, splits into two tokens, the
second empty, so it is not skipped: it prompts with an empty prompt and
stores the answer under the bare marker identifier. -/
theorem c7_marker_without_prompt :
    (∀ (text : List Nat) (s : InState), text.head? = some IDENTIFIER →
      (splitSep text).length ≤ 1 → input_parse_containing text s = s) ∧
    input_parse_containing [64] ⟨[[119]], []⟩ = ⟨[[119]], []⟩ ∧
    collectParse [64] = none ∧
    collectParse [64, 32] = some ([], ([64], true)) ∧
    input_parse_containing [64, 32] ⟨[[119]], []⟩ = ⟨[], [([64], ([[119]], true))]⟩ := by
  refine ⟨?_, by decide, by decide, by decide, by decide⟩
  intro text s hm hl
  rw [input_parse_containing, collectParse, if_pos hm, if_pos hl]

theorem c7_witness : input_parse_containing [64, 99] ⟨[], []⟩ = ⟨[], []⟩ :=
  c7_marker_without_prompt.1 [64, 99] ⟨[], []⟩ (by decide) (by decide)

end Radlibs
